import Mathlib

/-!
Shallow embedding of the Drusdenx search-engine core, with proofs about the
posting-list codec (compression/delta.rs), the sorted-set operations
(simd/operation.rs), the skip list (index/skiplist.rs), posting-list lookup
(index/posting.rs), WAL recovery (storage/wal.rs), wildcard and fuzzy term
enumeration (index/inverted.rs), the tiered merge policy
(storage/merge_policy.rs) and the MVCC controller (mvcc/controller.rs).

Machine integers are modelled as `Nat` with explicit `% 2^32` (u32) or the
constant `2^64 - 1` (u64::MAX) where wrap-around or saturation matters.
Bytes are `Nat`s that are `< 256` wherever they originate from the code.
-/

namespace Drusdenx

/-- Error kinds of core/error.rs, restricted to the kinds the embedded
functions can produce. -/
inductive ErrKind where
  | io
  | parse
  | invalidInput
  deriving Repr, DecidableEq

/-! ### Codec: compression/delta.rs -/

/-- `VByteEncoder::encode_u32`: while `value >= 128` push
`(value & 127) | 128` (= `value % 128 + 128`) and shift right by 7
(= divide by 128); finally push the remaining `value` (< 128). -/
def vbyteEncodeU32 (value : Nat) : List Nat :=
  if h : value < 128 then [value]
  else (value % 128 + 128) :: vbyteEncodeU32 (value / 128)
termination_by value
decreasing_by
  exact Nat.div_lt_self (by omega) (by omega)

/-- `VByteEncoder::decode_u32`, one entry of the loop with the mutable state
`(shift, value, consumed)` made explicit.  Each step does `consumed += 1`,
`value |= ((byte & 127) as u32) << shift` (the u32 shift discards bits above
2^32, hence the `% 2^32`), returns `(value, consumed)` when the continuation
bit is clear (for a u8 byte, `byte & 128 == 0` iff `byte < 128`), and
otherwise advances `shift` by 7, failing with `Parse` ("VByte overflow") when
the new shift exceeds 28.  An exhausted input is `Parse` ("Incomplete VByte"). -/
def vbyteDecodeU32 : List Nat → Nat → Nat → Nat → Except ErrKind (Nat × Nat)
  | [], _, _, _ => .error .parse
  | byte :: rest, shift, value, consumed =>
    let value' := value ||| ((byte % 128) <<< shift % 2 ^ 32)
    if byte < 128 then .ok (value', consumed + 1)
    else if shift + 7 > 28 then .error .parse
    else vbyteDecodeU32 rest (shift + 7) value' (consumed + 1)

/-- `u32::to_le_bytes`: the four little-endian bytes of a u32. -/
def leBytes4 (x : Nat) : List Nat :=
  [x % 256, x / 256 % 256, x / 65536 % 256, x / 16777216 % 256]

/-- `u32::from_le_bytes`. -/
def fromLe4 (b0 b1 b2 b3 : Nat) : Nat :=
  b0 + 256 * b1 + 65536 * b2 + 16777216 * b3

/-- The loop of `DeltaEncoder::encode_u32_list` over `i in 1..nums.len()`:
each value contributes the variable-byte encoding of
`nums[i].wrapping_sub(nums[i-1])`; for u32 operands the wrapping difference
is `(x + 2^32 - prev) % 2^32`. -/
def deltaEncodeDeltas (prev : Nat) : List Nat → List Nat
  | [] => []
  | x :: xs => vbyteEncodeU32 ((x + 2 ^ 32 - prev) % 2 ^ 32) ++ deltaEncodeDeltas x xs

/-- `DeltaEncoder::encode_u32_list`: empty input yields an empty buffer;
otherwise the first value is written as its four little-endian bytes,
followed by the variable-byte encoded wrapping deltas. -/
def deltaEncodeU32List (nums : List Nat) : List Nat :=
  match nums with
  | [] => []
  | x :: xs => leBytes4 x ++ deltaEncodeDeltas x xs

/-- Helper for the length bound used to run the decode loops: a successful
`vbyteDecodeU32` strictly increases the consumed counter. -/
theorem vbyteDecodeU32_consumed_lt :
    ∀ (input : List Nat) (shift value consumed v k : Nat),
      vbyteDecodeU32 input shift value consumed = .ok (v, k) → consumed < k := by
  intro input
  induction input with
  | nil => intro shift value consumed v k h; simp [vbyteDecodeU32] at h
  | cons byte rest ih =>
    intro shift value consumed v k h
    simp only [vbyteDecodeU32] at h
    split at h
    · simp at h
      omega
    · split at h
      · simp at h
      · have := ih _ _ _ _ _ h
        omega

/-- A successful `vbyteDecodeU32` consumes at most the whole input
(relative to the starting counter). -/
theorem vbyteDecodeU32_consumed_le :
    ∀ (input : List Nat) (shift value consumed v k : Nat),
      vbyteDecodeU32 input shift value consumed = .ok (v, k) →
        k ≤ consumed + input.length := by
  intro input
  induction input with
  | nil => intro shift value consumed v k h; simp [vbyteDecodeU32] at h
  | cons byte rest ih =>
    intro shift value consumed v k h
    simp only [vbyteDecodeU32] at h
    split at h
    · simp at h
      simp [List.length_cons]
      omega
    · split at h
      · simp at h
      · have := ih _ _ _ _ _ h
        simp [List.length_cons]
        omega

/-- The loop of `DeltaEncoder::decode_u32_list` after the first (raw) value:
while bytes remain, variable-byte decode a delta and push
`prev.wrapping_add(delta)` (= `(prev + delta) % 2^32`). -/
def deltaDecodeRest (data : List Nat) (prev : Nat) : Except ErrKind (List Nat) :=
  if hne : data = [] then .ok []
  else
    match h : vbyteDecodeU32 data 0 0 0 with
    | .error e => .error e
    | .ok (delta, consumed) =>
      let val := (prev + delta) % 2 ^ 32
      match deltaDecodeRest (data.drop consumed) val with
      | .error e => .error e
      | .ok vs => .ok (val :: vs)
termination_by data.length
decreasing_by
  have h1 : 0 < consumed := vbyteDecodeU32_consumed_lt data 0 0 0 delta consumed h
  have h2 : data.length ≠ 0 := by
    intro hz
    exact hne (List.eq_nil_of_length_eq_zero hz)
  simp [List.length_drop]
  omega

/-- `DeltaEncoder::decode_u32_list`: inputs shorter than 4 bytes decode to the
empty list; otherwise the first u32 is read raw (little-endian) and the
remaining bytes are decoded as wrapping deltas. -/
def deltaDecodeU32List (data : List Nat) : Except ErrKind (List Nat) :=
  match data with
  | b0 :: b1 :: b2 :: b3 :: rest =>
    let first := fromLe4 b0 b1 b2 b3
    match deltaDecodeRest rest first with
    | .error e => .error e
    | .ok vs => .ok (first :: vs)
  | _ => .ok []

/-! ### Sorted-set operations: simd/operation.rs -/

/-- `SimdOps::intersect_sorted`, with the cursor pair `(i, j)` replaced by the
corresponding suffixes of the two arrays.  Each loop iteration first tries the
galloping skip (when at least `GALLOP_THRESHOLD = 8` elements remain on both
sides): if `a[i+7] < b[j]` the whole 8-element chunk of `a` is skipped, and
symmetrically for `b`; otherwise one standard merge step runs.  The loop ends
when either side is exhausted (the initial `is_empty` check coincides with
that). -/
def intersectSorted (a b : List Nat) : List Nat :=
  match a, b with
  | [], _ => []
  | _, [] => []
  | x :: a', y :: b' =>
    if h8 : 8 ≤ (x :: a').length ∧ 8 ≤ (y :: b').length then
      if (x :: a').getD 7 0 < y then intersectSorted ((x :: a').drop 8) (y :: b')
      else if (y :: b').getD 7 0 < x then intersectSorted (x :: a') ((y :: b').drop 8)
      else
        if x < y then intersectSorted a' (y :: b')
        else if y < x then intersectSorted (x :: a') b'
        else x :: intersectSorted a' b'
    else
      if x < y then intersectSorted a' (y :: b')
      else if y < x then intersectSorted (x :: a') b'
      else x :: intersectSorted a' b'
termination_by a.length + b.length
decreasing_by
  all_goals simp [List.length_drop]
  all_goals omega

/-! ### Skip list: index/skiplist.rs, posting lookup: index/posting.rs -/

/-- The skip interval chosen by `SkipList::build`:
`(len as f32).sqrt().max(4.0) as usize`, i.e. at least 4.  The `f32` square
root is modelled by `Nat.sqrt` (exact for the small lengths evaluated below);
the skip-list theorems are derived from lemmas that hold for every interval
`≥ 1`, so the rounding of the square root never matters. -/
def skipInterval (len : Nat) : Nat :=
  max (Nat.sqrt len) 4

/-- The skip entries built by `SkipList::build`: one `(doc_id, position)` pair
for each `i in (0..len).step_by(interval)` — for `interval ≥ 1` exactly the
multiples of `interval` below `len`.  The `skip_to` field of `SkipEntry` is
never consulted by `find`, `skip_to_ge` or `intersect`, so it is omitted
here. -/
def buildEntries (docIds : List Nat) (interval : Nat) : List (Nat × Nat) :=
  ((List.range docIds.length).filter (fun i => i % interval = 0)).map
    (fun i => (docIds.getD i 0, i))

/-- First phase of `SkipList::find`: walk the entries in order, remembering
the position of the last entry whose doc id is ≤ the target, breaking at the
first entry whose doc id exceeds it. -/
def findSkipPos : List (Nat × Nat) → Nat → Nat → Nat
  | [], pos, _ => pos
  | (d, p) :: es, pos, target => if d > target then pos else findSkipPos es p target

/-- Second phase of `SkipList::find`: the linear scan `for i in pos..len`
returning `Some(i)` at the first doc id equal to the target and `None` at the
first doc id above it (`ds` stands for `doc_ids.drop i`). -/
def scanFrom : List Nat → Nat → Nat → Option Nat
  | [], _, _ => none
  | d :: ds, i, target =>
    if d = target then some i
    else if d > target then none
    else scanFrom ds (i + 1) target

/-- `SkipList::find` on a skip list built from `docIds` with the given
interval.  DocId values are stored as u32 and both `find` and `find_doc`
truncate their argument identically, so doc ids and targets are plain `Nat`s
here. -/
def skipFind (docIds : List Nat) (interval target : Nat) : Option Nat :=
  scanFrom (docIds.drop (findSkipPos (buildEntries docIds interval) 0 target))
    (findSkipPos (buildEntries docIds interval) 0 target) target

/-- The binary search over `[lo, hi)` backing `PostingList::find_doc`
(`decoded.binary_search(&target).ok()`), written as the textbook midpoint
loop; on the strictly increasing inputs of every theorem below the matching
index is unique, so this computes the same result as `slice::binary_search`. -/
def binarySearchLoop (xs : List Nat) (target lo hi : Nat) : Option Nat :=
  if h : lo < hi then
    if xs.getD ((lo + hi) / 2) 0 < target then binarySearchLoop xs target ((lo + hi) / 2 + 1) hi
    else if target < xs.getD ((lo + hi) / 2) 0 then binarySearchLoop xs target lo ((lo + hi) / 2)
    else some ((lo + hi) / 2)
  else none
termination_by hi - lo
decreasing_by
  all_goals omega

/-- `PostingList::find_doc` on the decoded doc-id list: binary search for the
target, `Some(index)` when present. -/
def findDoc (docIds : List Nat) (target : Nat) : Option Nat :=
  binarySearchLoop docIds target 0 docIds.length

/-- The entry walk of `SkipList::skip_to_ge`: the first entry (in order) whose
position is ≥ `start` and whose doc id is ≥ `target`; entries before `start`
are skipped with `continue`. -/
def skipToGeEntries : List (Nat × Nat) → Nat → Nat → Option Nat
  | [], _, _ => none
  | (d, p) :: es, start, target =>
    if p < start then skipToGeEntries es start target
    else if d ≥ target then some p
    else skipToGeEntries es start target

/-- The fallback linear scan of `SkipList::skip_to_ge` (`for i in from..len`):
the first index ≥ `start` whose doc id is ≥ `target`, else `len` (`ds` stands
for `doc_ids.drop i`). -/
def linearGeFrom : List Nat → Nat → Nat → Nat → Nat
  | [], _, len, _ => len
  | d :: ds, i, len, target => if d ≥ target then i else linearGeFrom ds (i + 1) len target

/-- `SkipList::skip_to_ge` on a skip list built from `docIds` with the given
interval. -/
def skipToGe (docIds : List Nat) (interval target start : Nat) : Nat :=
  match skipToGeEntries (buildEntries docIds interval) start target with
  | some p => p
  | none => linearGeFrom (docIds.drop start) start docIds.length target

/-- A successful entry walk hands back the position of an entry at or after
`start` whose doc id is at least the target. -/
theorem skipToGeEntries_spec :
    ∀ (es : List (Nat × Nat)) (start target p : Nat),
      skipToGeEntries es start target = some p →
        ∃ d, (d, p) ∈ es ∧ start ≤ p ∧ target ≤ d := by
  intro es
  induction es with
  | nil => intro start target p h; simp [skipToGeEntries] at h
  | cons e es ih =>
    intro start target p h
    match e with
    | (d, q) =>
      simp only [skipToGeEntries] at h
      split at h
      · obtain ⟨d', hd⟩ := ih _ _ _ h
        exact ⟨d', List.mem_cons_of_mem _ hd.1, hd.2⟩
      · split at h
        · rename_i hge
          simp at h
          subst h
          exact ⟨d, by simp, by omega, by omega⟩
        · obtain ⟨d', hd⟩ := ih _ _ _ h
          exact ⟨d', List.mem_cons_of_mem _ hd.1, hd.2⟩

/-- Every skip entry records a real position of the doc-id list together with
the doc id stored there. -/
theorem buildEntries_mem {docIds : List Nat} {interval d p : Nat}
    (h : (d, p) ∈ buildEntries docIds interval) :
    p < docIds.length ∧ d = docIds.getD p 0 := by
  simp only [buildEntries, List.mem_map, List.mem_filter, List.mem_range] at h
  obtain ⟨i, ⟨hi, _⟩, heq⟩ := h
  obtain ⟨hd, hp⟩ := Prod.mk.injEq .. ▸ heq
  subst hp
  exact ⟨hi, hd.symm⟩

/-- The fallback linear scan never answers below its starting index when the
`len` argument accounts for the remaining elements. -/
theorem linearGeFrom_ge :
    ∀ (ds : List Nat) (i len target : Nat), len = i + ds.length →
      i ≤ linearGeFrom ds i len target := by
  intro ds
  induction ds with
  | nil => intro i len target h; simp [linearGeFrom]; omega
  | cons d ds ih =>
    intro i len target h
    simp only [linearGeFrom]
    split
    · exact le_refl _
    · have := ih (i + 1) len target (by simp at h; omega)
      omega

/-- `skip_to_ge` makes strict progress whenever the doc id at the cursor is
below the target (the progress fact that makes the `intersect` loop
terminate). -/
theorem skipToGe_gt (docIds : List Nat) (interval target start : Nat)
    (hs : start < docIds.length) (hlt : docIds.getD start 0 < target) :
    start < skipToGe docIds interval target start := by
  cases hw : skipToGeEntries (buildEntries docIds interval) start target with
  | some p =>
    obtain ⟨d, hmem, hge, htar⟩ := skipToGeEntries_spec _ _ _ _ hw
    obtain ⟨hp, hd⟩ := buildEntries_mem hmem
    have hne : p ≠ start := by
      intro he
      subst he
      omega
    simp only [skipToGe, hw]
    omega
  | none =>
    simp only [skipToGe, hw]
    have hdrop : docIds.drop start = docIds.getD start 0 :: docIds.drop (start + 1) := by
      rw [List.getD_eq_getElem _ _ hs]
      exact List.drop_eq_getElem_cons hs
    rw [hdrop]
    simp only [linearGeFrom]
    rw [if_neg (by omega)]
    have := linearGeFrom_ge (docIds.drop (start + 1)) (start + 1) docIds.length target
      (by simp [List.length_drop]; omega)
    omega

/-- The loop of `SkipList::intersect` with cursors `i` into `list1` and `j`
into `list2`: equal doc ids are emitted and both cursors advance, otherwise
the lagging cursor jumps via `skip_to_ge`. -/
def skipIntersectGo (xs1 : List Nat) (iv1 : Nat) (xs2 : List Nat) (iv2 : Nat)
    (i j : Nat) : List Nat :=
  if h : i < xs1.length ∧ j < xs2.length then
    if heq : xs1.getD i 0 = xs2.getD j 0 then
      xs1.getD i 0 :: skipIntersectGo xs1 iv1 xs2 iv2 (i + 1) (j + 1)
    else if hlt : xs1.getD i 0 < xs2.getD j 0 then
      skipIntersectGo xs1 iv1 xs2 iv2 (skipToGe xs1 iv1 (xs2.getD j 0) i) j
    else
      skipIntersectGo xs1 iv1 xs2 iv2 i (skipToGe xs2 iv2 (xs1.getD i 0) j)
  else []
termination_by (xs1.length - i) + (xs2.length - j)
decreasing_by
  · omega
  · have := skipToGe_gt xs1 iv1 (xs2.getD j 0) i h.1 hlt
    omega
  · have := skipToGe_gt xs2 iv2 (xs1.getD i 0) j h.2 (by omega)
    omega

/-- `SkipList::intersect(list1, list2)` on skip lists built from the two
doc-id lists by `SkipList::build`. -/
def skipIntersect (xs1 xs2 : List Nat) : List Nat :=
  skipIntersectGo xs1 (skipInterval xs1.length) xs2 (skipInterval xs2.length) 0 0

/-! ### Write-ahead log: storage/wal.rs -/

/-- `WAL::read_entries`, over the byte content of one WAL file.  The loop
reads a 4-byte little-endian length prefix (an `UnexpectedEof` there — fewer
than 4 bytes remaining — breaks the loop and returns the entries so far),
rejects lengths above 10 MB with `InvalidInput`, reads `len` bytes of entry
data (an `UnexpectedEof` there is propagated with `?`, modelled as an `Io`
error), and `bincode`-deserializes them: a failing entry is skipped with a
warning and reading continues.  Deserialization itself is external
(`bincode`), so it is a parameter `deser`. -/
def readEntries {α : Type} (deser : List Nat → Option α) (data : List Nat) :
    Except ErrKind (List α) :=
  if h4 : data.length < 4 then .ok []
  else
    if fromLe4 (data.getD 0 0) (data.getD 1 0) (data.getD 2 0) (data.getD 3 0) >
        10000000 then .error .invalidInput
    else if (data.drop 4).length <
        fromLe4 (data.getD 0 0) (data.getD 1 0) (data.getD 2 0) (data.getD 3 0) then
      .error .io
    else
      match deser ((data.drop 4).take
          (fromLe4 (data.getD 0 0) (data.getD 1 0) (data.getD 2 0) (data.getD 3 0))) with
      | some e =>
        (readEntries deser ((data.drop 4).drop
          (fromLe4 (data.getD 0 0) (data.getD 1 0) (data.getD 2 0) (data.getD 3 0)))).map
          (e :: ·)
      | none =>
        readEntries deser ((data.drop 4).drop
          (fromLe4 (data.getD 0 0) (data.getD 1 0) (data.getD 2 0) (data.getD 3 0)))
termination_by data.length
decreasing_by
  all_goals simp [List.length_drop]
  all_goals omega

/-- One well-formed WAL record as `WAL::append` writes it: 4-byte
little-endian length prefix, then the serialized entry bytes. -/
def encodeFrame (chunk : List Nat) : List Nat :=
  leBytes4 chunk.length ++ chunk

/-! ### Term enumeration: index/inverted.rs -/

/-- One token of the regex fragment produced by the wildcard translation:
a literal character, `.` (any character), or `.*` (any run). -/
inductive RTok where
  | lit (c : Char)
  | dot
  | dotStar
  deriving Repr, DecidableEq

/-- The pattern translation of `InvertedIndex::wildcard_search`:
`pattern.replace("*", ".*").replace("?", ".")` handed to `Regex::new`.  `*`
becomes `.*`, `?` becomes `.`, every other character stands for itself
(faithful for patterns free of further regex metacharacters, as used below;
`.` is modelled as matching any character — the terms used below contain no
newline). -/
def translatePattern : List Char → List RTok
  | [] => []
  | c :: cs =>
    (if c = '*' then RTok.dotStar else if c = '?' then RTok.dot else RTok.lit c) ::
      translatePattern cs

/-- Regex matching anchored at the start only: the pattern must match some
prefix of the input. -/
def matchesFrom : List RTok → List Char → Bool
  | [], _ => true
  | RTok.lit _ :: _, [] => false
  | RTok.lit c :: p, x :: s => c = x && matchesFrom p s
  | RTok.dot :: _, [] => false
  | RTok.dot :: p, _ :: s => matchesFrom p s
  | RTok.dotStar :: p, s =>
    matchesFrom p s ||
      (match s with
       | [] => false
       | _ :: s' => matchesFrom (RTok.dotStar :: p) s')
termination_by p s => (s.length, p.length)

/-- `Regex::is_match` is unanchored: it succeeds iff the pattern matches
starting at some position of the input. -/
def isMatch (p : List RTok) (s : List Char) : Bool :=
  matchesFrom p s ||
    (match s with
     | [] => false
     | _ :: s' => isMatch p s')
termination_by s.length

/-- `InvertedIndex::wildcard_search`: translate the pattern and keep every
dictionary term the regex matches (the `HashMap` iteration order of
`dictionary.term_map.keys()` is the order of `dict`; terms are character
lists standing for the `from_utf8_lossy` strings). -/
def wildcardSearch (dict : List (List Char)) (pattern : List Char) : List (List Char) :=
  dict.filter (fun term => isMatch (translatePattern pattern) term)

/-- The spec's matching predicate for C7, following its words: the wildcard
pattern anchored at both ends — the whole term must match. -/
def matchesWhole : List RTok → List Char → Bool
  | [], [] => true
  | [], _ :: _ => false
  | RTok.lit _ :: _, [] => false
  | RTok.lit c :: p, x :: s => c = x && matchesWhole p s
  | RTok.dot :: _, [] => false
  | RTok.dot :: p, _ :: s => matchesWhole p s
  | RTok.dotStar :: p, s =>
    matchesWhole p s ||
      (match s with
       | [] => false
       | _ :: s' => matchesWhole (RTok.dotStar :: p) s')
termination_by p s => (s.length, p.length)

/-- Modelled from the spec: `core/utils.rs` is declared in `core/mod.rs` but
absent from the source tree, so `levenshtein_distance`, which
`InvertedIndex::fuzzy_search` calls, is modelled from §4.3's
"Damerau-or-Levenshtein distance (configurable)" as the textbook Levenshtein
edit-distance recursion. -/
def levenshteinDistance : List Char → List Char → Nat
  | [], t => t.length
  | s, [] => s.length
  | a :: s, b :: t =>
    if a = b then levenshteinDistance s t
    else 1 + min (levenshteinDistance s t)
      (min (levenshteinDistance (a :: s) t) (levenshteinDistance s (b :: t)))
termination_by s t => s.length + t.length

/-- Stable insertion by a `Nat` key: the new element lands after every
element whose key is at most its own. -/
def insertKeyed {α : Type} (key : α → Nat) (x : α) : List α → List α
  | [] => [x]
  | y :: ys => if key y ≤ key x then y :: insertKeyed key x ys else x :: y :: ys

/-- Left-fold insertion sort by a `Nat` key.  Processing elements left to
right and inserting each after equal keys makes this stable, so it computes
the same list as Rust's (stable) `sort_by_key`. -/
def sortKeyed {α : Type} (key : α → Nat) (l : List α) : List α :=
  l.foldl (fun acc x => insertKeyed key x acc) []

/-- The scan-and-filter loop of `InvertedIndex::fuzzy_search`: split the
query term at `prefix_length` (when `0 < prefix_length ≤ term.len()`), skip
dictionary terms that do not start with the prefix, and keep `(term,
distance)` for suffix distances within `max_distance`. -/
def fuzzyCandidates (dict : List (List Char)) (term : List Char)
    (maxDistance prefixLength : Nat) : List (List Char × Nat) :=
  dict.filterMap (fun d =>
    if (if 0 < prefixLength ∧ prefixLength ≤ term.length then term.take prefixLength
        else []) ≠ [] ∧
        ¬ (if 0 < prefixLength ∧ prefixLength ≤ term.length then term.take prefixLength
          else []).isPrefixOf d then none
    else
      if levenshteinDistance
          (if 0 < prefixLength ∧ prefixLength ≤ term.length then term.drop prefixLength
            else term)
          (d.drop (if 0 < prefixLength ∧ prefixLength ≤ term.length then prefixLength
            else 0)) ≤ maxDistance then
        some (d, levenshteinDistance
          (if 0 < prefixLength ∧ prefixLength ≤ term.length then term.drop prefixLength
            else term)
          (d.drop (if 0 < prefixLength ∧ prefixLength ≤ term.length then prefixLength
            else 0)))
      else none)

/-- `InvertedIndex::fuzzy_search`: collect the candidates, then
`matching_terms.sort_by_key(|(_, dist)| *dist)` — a stable sort by distance
alone. -/
def fuzzySearch (dict : List (List Char)) (term : List Char)
    (maxDistance prefixLength : Nat) : List (List Char × Nat) :=
  sortKeyed (fun p => p.2) (fuzzyCandidates dict term maxDistance prefixLength)

/-- Boolean lexicographic order on character lists (the order the claim's
tie-break clause refers to). -/
def lexLe : List Char → List Char → Bool
  | [], _ => true
  | _ :: _, [] => false
  | a :: s, b :: t => if a < b then true else if b < a then false else lexLe s t

/-! ### Merge policy: storage/merge_policy.rs -/

/-- The accumulation loop of `TieredMergePolicy::select_segments_to_merge`
over the size-sorted segments (segments are represented by their
`metadata.size_bytes`): segments above `max_merge_size / 2` are skipped
(`continue`), the loop breaks when the running total would exceed
`max_merge_size`, and it stops after `max_segments_to_merge` selections. -/
def selectLoop (maxMergeSize maxMerge : Nat) :
    List Nat → List Nat → Nat → List Nat
  | [], selected, _ => selected
  | s :: rest, selected, currentSize =>
    if s > maxMergeSize / 2 then selectLoop maxMergeSize maxMerge rest selected currentSize
    else if currentSize + s > maxMergeSize then selected
    else if maxMerge ≤ (selected ++ [s]).length then selected ++ [s]
    else selectLoop maxMergeSize maxMerge rest (selected ++ [s]) (currentSize + s)

/-- `TieredMergePolicy::select_segments_to_merge` with the policy fields as
parameters (defaults: `max_segment_size_mb = 512`, `min_segments_to_merge =
2`, `max_segments_to_merge = 10`): sort ascending by size, accumulate, and
return nothing when fewer than `min_segments_to_merge` qualify. -/
def selectSegmentsToMerge (maxSegmentSizeMb minMerge maxMerge : Nat)
    (sizes : List Nat) : List Nat :=
  if (selectLoop (maxSegmentSizeMb * 1024 * 1024) maxMerge
      (sortKeyed (fun s => s) sizes) [] 0).length < minMerge then []
  else selectLoop (maxSegmentSizeMb * 1024 * 1024) maxMerge
    (sortKeyed (fun s => s) sizes) [] 0

/-! ### MVCC controller: mvcc/controller.rs -/

/-- `Snapshot`, with segments represented by their `doc_count` (the only
segment field the controller reads), the deletion bitmap by its set of
values, and the wall-clock `timestamp` omitted. -/
structure SnapshotM where
  version : Nat
  segments : List Nat
  docCount : Nat
  deletedDocs : List Nat
  deriving Repr, DecidableEq

/-- `Snapshot::default()`: version 0, no segments, no documents, empty
deletion bitmap. -/
def defaultSnapshot : SnapshotM :=
  ⟨0, [], 0, []⟩

/-- `MVCCController` state: the version → snapshot `BTreeMap` as a key-sorted
association list, the active transaction ids, the atomic version counter, and
`max_versions` (100 in `new()`). -/
structure MVCCStateM where
  versions : List (Nat × SnapshotM)
  activeTxns : List Nat
  currentVersion : Nat
  maxVersions : Nat
  deriving Repr, DecidableEq

/-- `u64::MAX`, the fallback of `active_txns.iter().min().unwrap_or(...)`. -/
def U64MAX : Nat :=
  2 ^ 64 - 1

/-- `BTreeMap::insert` on the key-sorted association list (replacing an
existing binding). -/
def insertVersion : List (Nat × SnapshotM) → Nat → SnapshotM → List (Nat × SnapshotM)
  | [], v, s => [(v, s)]
  | (k, t) :: rest, v, s =>
    if v < k then (v, s) :: (k, t) :: rest
    else if v = k then (v, s) :: rest
    else (k, t) :: insertVersion rest v s

/-- `MVCCController::gc_old_versions`: when more than `max_versions` versions
exist, retain version `v` iff `v >= min_active || current_len <= min_keep`,
where `min_active` is the smallest active transaction id (`u64::MAX` when
none), `min_keep = max_versions / 2`, and `current_len` is the length
captured *before* the `retain`. -/
def gcOldVersions (maxVersions : Nat) (activeTxns : List Nat)
    (versions : List (Nat × SnapshotM)) : List (Nat × SnapshotM) :=
  if versions.length > maxVersions then
    versions.filter (fun vp =>
      decide (activeTxns.min?.getD U64MAX ≤ vp.1) ||
        decide (versions.length ≤ maxVersions / 2))
  else versions

/-- `MVCCController::create_snapshot_with_deletes`: allocate the next version
(`fetch_add` returns the previous counter value), publish the snapshot with
`doc_count` the sum of the segments' document counts, insert it into the
version map, then garbage-collect old versions. -/
def createSnapshotWithDeletes (st : MVCCStateM) (segments : List Nat)
    (deletedDocs : List Nat) : MVCCStateM × SnapshotM :=
  ({ st with
      versions := gcOldVersions st.maxVersions st.activeTxns
        (insertVersion st.versions st.currentVersion
          ⟨st.currentVersion, segments, segments.sum, deletedDocs⟩),
      currentVersion := st.currentVersion + 1 },
    ⟨st.currentVersion, segments, segments.sum, deletedDocs⟩)

/-- `MVCCController::current_snapshot`: read the snapshot at version
`current - 1` (`current` when the counter is still 0), falling back to
`Snapshot::default()` when the map has no such version. -/
def currentSnapshot (st : MVCCStateM) : SnapshotM :=
  (st.versions.lookup
    (if st.currentVersion > 0 then st.currentVersion - 1 else 0)).getD defaultSnapshot

/-! ### Codec proofs -/

/-- `Nat.bit` spelled out arithmetically. -/
theorem bit_arith (c : Bool) (m : Nat) : Nat.bit c m = 2 * m + (if c then 1 else 0) := by
  cases c <;> simp [Nat.bit] <;> ring

/-- Bitwise or with a shifted value is plain addition when the low bits are
free: for `a < 2^n`, `a ||| (b * 2^n) = a + b * 2^n`. -/
theorem lor_mul_two_pow (n : Nat) : ∀ a b : Nat, a < 2 ^ n → a ||| (b * 2 ^ n) = a + b * 2 ^ n := by
  induction n with
  | zero =>
    intro a b h
    interval_cases a
    simp
  | succ n ih =>
    intro a b h
    have h2 : a.div2 < 2 ^ n := by
      rw [Nat.div2_val]
      omega
    have hb : b * 2 ^ (n + 1) = Nat.bit false (b * 2 ^ n) := by
      rw [bit_arith]
      simp
      ring
    have ha := Nat.bit_decomp a
    rw [bit_arith] at ha
    calc a ||| (b * 2 ^ (n + 1))
        = Nat.bit a.bodd a.div2 ||| Nat.bit false (b * 2 ^ n) := by rw [Nat.bit_decomp, hb]
      _ = Nat.bit (a.bodd || false) (a.div2 ||| (b * 2 ^ n)) := by rw [Nat.lor_bit]
      _ = Nat.bit a.bodd (a.div2 + b * 2 ^ n) := by rw [ih _ _ h2]; simp
      _ = a + b * 2 ^ (n + 1) := by
          rw [bit_arith]
          rcases hab : a.bodd with _ | _ <;> simp [hab] at ha ⊢ <;> ring_nf <;>
            ring_nf at ha <;> omega

/-- The variable-byte encoding of a value is never empty. -/
theorem vbyteEncodeU32_ne_nil (v : Nat) : vbyteEncodeU32 v ≠ [] := by
  rw [vbyteEncodeU32]
  split <;> simp

/-- Decoding a variable-byte encoded value `v < 2^(32-shift)` from the front
of a buffer succeeds, adds `v * 2^shift` into the accumulated value, and
consumes exactly the encoding. -/
theorem vbyteDecodeU32_encode (v : Nat) :
    ∀ (shift value consumed : Nat) (extra : List Nat),
      shift % 7 = 0 → shift ≤ 28 → value < 2 ^ shift → v < 2 ^ (32 - shift) →
      vbyteDecodeU32 (vbyteEncodeU32 v ++ extra) shift value consumed =
        .ok (value + v * 2 ^ shift, consumed + (vbyteEncodeU32 v).length) := by
  induction v using Nat.strong_induction_on with
  | _ v ih =>
    intro shift value consumed extra h7 h28 hval hv
    rw [vbyteEncodeU32]
    split
    · -- v < 128: a single byte without continuation bit
      rename_i hlt
      have hshift : v <<< shift = v * 2 ^ shift := Nat.shiftLeft_eq v shift
      have hbound : v * 2 ^ shift < 2 ^ 32 := by
        calc v * 2 ^ shift < 2 ^ (32 - shift) * 2 ^ shift :=
              Nat.mul_lt_mul_of_lt_of_le hv (le_refl _) (Nat.pos_pow_of_pos _ (by omega))
          _ = 2 ^ 32 := by rw [← pow_add]; congr 1; omega
      simp only [List.cons_append, List.nil_append, vbyteDecodeU32, List.length_cons,
        List.length_nil]
      rw [if_pos hlt]
      rw [Nat.mod_eq_of_lt hlt, hshift, Nat.mod_eq_of_lt hbound, lor_mul_two_pow _ _ _ hval]
    · -- v ≥ 128: continuation byte, then recurse on v / 128
      rename_i hge
      push_neg at hge
      have hshift_le : shift ≤ 21 := by
        have : (128 : Nat) < 2 ^ (32 - shift) := lt_of_le_of_lt hge hv
        have h7' : (2 : Nat) ^ 7 < 2 ^ (32 - shift) := by norm_num at this ⊢; omega
        have := (@Nat.pow_lt_pow_iff_right 2 7 (32 - shift) (by omega)).mp h7'
        omega
      have hmod : (v % 128 + 128) % 128 = v % 128 := by omega
      have hb128 : ¬ (v % 128 + 128 < 128) := by omega
      have hshift128 : (v % 128) <<< shift = (v % 128) * 2 ^ shift :=
        Nat.shiftLeft_eq _ shift
      have hsmall : (v % 128) * 2 ^ shift < 2 ^ 32 := by
        have h1 : v % 128 < 2 ^ 7 := by norm_num; omega
        calc (v % 128) * 2 ^ shift < 2 ^ 7 * 2 ^ shift :=
              Nat.mul_lt_mul_of_lt_of_le h1 (le_refl _) (Nat.pos_pow_of_pos _ (by omega))
          _ = 2 ^ (7 + shift) := by rw [← pow_add]
          _ ≤ 2 ^ 32 := Nat.pow_le_pow_right (by omega) (by omega)
      have hno28 : ¬ (shift + 7 > 28) := by omega
      simp only [List.cons_append, vbyteDecodeU32, List.length_cons]
      rw [if_neg hb128, if_neg hno28, hmod, hshift128, Nat.mod_eq_of_lt hsmall,
        lor_mul_two_pow _ _ _ hval]
      have hval' : value + v % 128 * 2 ^ shift < 2 ^ (shift + 7) := by
        have h1 : v % 128 * 2 ^ shift ≤ 127 * 2 ^ shift :=
          Nat.mul_le_mul_right _ (by omega)
        calc value + v % 128 * 2 ^ shift < 2 ^ shift + 127 * 2 ^ shift := by omega
          _ = 2 ^ shift * 2 ^ 7 := by ring
          _ = 2 ^ (shift + 7) := by rw [← pow_add]
      have hv' : v / 128 < 2 ^ (32 - (shift + 7)) := by
        have h128 : (128 : Nat) = 2 ^ 7 := by norm_num
        have hdvd : (128 : Nat) ∣ 2 ^ (32 - shift) := by
          rw [h128]
          exact pow_dvd_pow 2 (by omega)
        have hdiv : v / 128 < 2 ^ (32 - shift) / 128 :=
          Nat.div_lt_div_of_lt_of_dvd hdvd hv
        have heq : (2 : Nat) ^ (32 - shift) / 128 = 2 ^ (32 - (shift + 7)) := by
          rw [h128, Nat.pow_div (by omega) (by omega)]
          congr 1
        omega
      rw [List.append_eq, ih (v / 128) (Nat.div_lt_self (by omega) (by omega)) (shift + 7) _
        (consumed + 1) extra (by omega) (by omega) hval' hv']
      congr 1
      congr 1
      · have hp : (2 : Nat) ^ (shift + 7) = 2 ^ shift * 128 := by
          rw [pow_add]
          norm_num
        rw [hp]
        conv_rhs => rw [← Nat.mod_add_div v 128]
        ring
      · omega

/-- Decoding the delta-encoded tail restores the original values: the running
`wrapping_add` inverts every `wrapping_sub` taken at encode time. -/
theorem deltaDecodeRest_encode :
    ∀ (xs : List Nat) (prev : Nat), prev < 2 ^ 32 → (∀ x ∈ xs, x < 2 ^ 32) →
      deltaDecodeRest (deltaEncodeDeltas prev xs) prev = .ok xs := by
  intro xs
  induction xs with
  | nil =>
    intro prev hprev h32
    rw [deltaEncodeDeltas, deltaDecodeRest]
    simp
  | cons x rest ih =>
    intro prev hprev h32
    have hx : x < 2 ^ 32 := h32 x (by simp)
    have hd : (x + 2 ^ 32 - prev) % 2 ^ 32 < 2 ^ 32 :=
      Nat.mod_lt _ (by norm_num)
    rw [deltaEncodeDeltas, deltaDecodeRest]
    have hne : vbyteEncodeU32 ((x + 2 ^ 32 - prev) % 2 ^ 32) ++ deltaEncodeDeltas x rest ≠ [] := by
      intro hcon
      exact vbyteEncodeU32_ne_nil _ (List.append_eq_nil.mp hcon).1
    rw [dif_neg hne]
    have hdec := vbyteDecodeU32_encode ((x + 2 ^ 32 - prev) % 2 ^ 32) 0 0 0
      (deltaEncodeDeltas x rest) (by omega) (by omega) (by omega) (by simpa using hd)
    rw [hdec]
    simp only [pow_zero, mul_one, Nat.zero_add, List.drop_left]
    have hval : (prev + (x + 2 ^ 32 - prev) % 2 ^ 32) % 2 ^ 32 = x := by
      have h32' : (2 : Nat) ^ 32 = 4294967296 := by norm_num
      rw [h32'] at hprev hx ⊢
      omega
    rw [hval, ih x hx (fun y hy => h32 y (by simp [hy]))]

/-- Reading back the four little-endian bytes of a u32 yields the value. -/
theorem fromLe4_leBytes4 (x : Nat) (hx : x < 2 ^ 32) :
    fromLe4 (x % 256) (x / 256 % 256) (x / 65536 % 256) (x / 16777216 % 256) = x := by
  have h32' : (2 : Nat) ^ 32 = 4294967296 := by norm_num
  rw [h32'] at hx
  simp only [fromLe4]
  omega

/-- C4: For every finite sorted `[u32]` list `xs`,
`DeltaEncoder::decode_u32_list(DeltaEncoder::encode_u32_list(xs))` returns
`Ok(xs)`; on the empty input both encode and decode return an empty buffer. -/
theorem delta_roundtrip_c4 (xs : List Nat) (hsorted : List.Sorted (· ≤ ·) xs)
    (h32 : ∀ x ∈ xs, x < 2 ^ 32) :
    deltaDecodeU32List (deltaEncodeU32List xs) = .ok xs ∧
    deltaEncodeU32List [] = ([] : List Nat) ∧
    deltaDecodeU32List [] = .ok ([] : List Nat) := by
  refine ⟨?_, rfl, rfl⟩
  match xs with
  | [] => rfl
  | x :: rest =>
    have hx : x < 2 ^ 32 := h32 x (by simp)
    simp only [deltaEncodeU32List, leBytes4, List.cons_append, List.nil_append,
      deltaDecodeU32List]
    rw [fromLe4_leBytes4 x hx,
      deltaDecodeRest_encode rest x hx (fun y hy => h32 y (by simp [hy]))]

/-! ### Sorted-set operation proofs -/

/-- The head of a strictly sorted list bounds every member from below. -/
theorem sorted_head_le {y : Nat} {l : List Nat} (hs : List.Sorted (· < ·) (y :: l)) :
    ∀ z ∈ y :: l, y ≤ z := by
  intro z hz
  rcases List.mem_cons.mp hz with rfl | h
  · exact le_refl _
  · exact le_of_lt (List.rel_of_sorted_cons hs z h)

/-- In a strictly sorted list, every element of `take (n+1)` is at most the
element at index `n`. -/
theorem sorted_take_le :
    ∀ (l : List Nat) (n : Nat), List.Sorted (· < ·) l → n < l.length →
      ∀ t ∈ l.take (n + 1), t ≤ l.getD n 0 := by
  intro l
  induction l with
  | nil => intro n _ hn; simp at hn
  | cons z l' ih =>
    intro n hs hn t ht
    rw [List.take_succ_cons] at ht
    rcases List.mem_cons.mp ht with rfl | ht'
    · match n with
      | 0 => simp
      | m + 1 =>
        have hm : m < l'.length := by simpa using hn
        have : t < l'.getD m 0 := by
          rw [List.getD_eq_getElem l' 0 hm]
          exact List.rel_of_sorted_cons hs _ (l'.getElem_mem hm)
        simpa using le_of_lt this
    · match n with
      | 0 => simp at ht'
      | m + 1 =>
        have hm : m < l'.length := by simpa using hn
        simpa using ih m (List.Sorted.of_cons hs) hm t ht'

/-- Galloping skip on the left: if the 8th remaining element of `a` is below
the head of `b`, the first 8 elements of `a` contribute nothing to the
intersection. -/
theorem filter_mem_drop8 {a b : List Nat} (hsa : List.Sorted (· < ·) a)
    (hsb : List.Sorted (· < ·) b) (hb : b ≠ []) (h8 : 8 ≤ a.length)
    (hlt : a.getD 7 0 < b.getD 0 0) :
    a.filter (fun t => decide (t ∈ b)) = (a.drop 8).filter (fun t => decide (t ∈ b)) := by
  conv_lhs => rw [← List.take_append_drop 8 a]
  rw [List.filter_append]
  have htake : (a.take 8).filter (fun t => decide (t ∈ b)) = [] := by
    rw [List.filter_eq_nil_iff]
    intro t ht
    simp only [decide_eq_true_eq]
    intro htb
    match b, hb with
    | y :: b', _ =>
      have h1 : t ≤ a.getD 7 0 := sorted_take_le a 7 hsa (by omega) t ht
      have h2 : y ≤ t := sorted_head_le hsb t htb
      rw [List.getD_cons_zero] at hlt
      omega
  rw [htake, List.nil_append]

/-- Galloping skip on the right: if the 8th remaining element of `b` is below
the head of `a`, membership in `b` and in `b.drop 8` agree on every element
of `a`. -/
theorem filter_mem_drop8_right {a b : List Nat} (hsa : List.Sorted (· < ·) a)
    (hsb : List.Sorted (· < ·) b) (ha : a ≠ []) (h8 : 8 ≤ b.length)
    (hlt : b.getD 7 0 < a.getD 0 0) :
    a.filter (fun t => decide (t ∈ b)) = a.filter (fun t => decide (t ∈ b.drop 8)) := by
  apply List.filter_congr
  intro t ht
  rw [decide_eq_decide]
  constructor
  · intro htb
    -- t is not among the first 8 elements of b, all of which are < t
    conv at htb => rw [← List.take_append_drop 8 b]
    rcases List.mem_append.mp htb with h | h
    · exfalso
      match a, ha with
      | x :: a', _ =>
        have h1 : t ≤ b.getD 7 0 := sorted_take_le b 7 hsb (by omega) t h
        have h2 : x ≤ t := sorted_head_le hsa t ht
        rw [List.getD_cons_zero] at hlt
        omega
    · exact h
  · intro h
    exact List.mem_of_mem_drop h

/-- Main loop invariant of `SimdOps::intersect_sorted`: on strictly sorted
inputs the galloping merge computes exactly the members of `a` that also
occur in `b`. -/
theorem intersectSorted_eq_filter :
    ∀ (n : Nat) (a b : List Nat), a.length + b.length ≤ n →
      List.Sorted (· < ·) a → List.Sorted (· < ·) b →
      intersectSorted a b = a.filter (fun t => decide (t ∈ b)) := by
  intro n
  induction n with
  | zero =>
    intro a b hlen _ _
    match a, b with
    | [], b => simp [intersectSorted]
    | x :: a', b => simp at hlen
  | succ n ih =>
    intro a b hlen hsa hsb
    match a, b with
    | [], b => simp [intersectSorted]
    | x :: a', [] => simp [intersectSorted]
    | x :: a', y :: b' =>
      have hmerge :
          (if x < y then intersectSorted a' (y :: b')
           else if y < x then intersectSorted (x :: a') b'
           else x :: intersectSorted a' b') =
            (x :: a').filter (fun t => decide (t ∈ y :: b')) := by
        by_cases hxy : x < y
        · rw [if_pos hxy]
          have hx_notmem : ¬ x ∈ y :: b' := by
            intro hmem
            have := sorted_head_le hsb x hmem
            omega
          rw [List.filter_cons_of_neg (by simpa using hx_notmem)]
          exact ih a' (y :: b') (by simp at hlen ⊢; omega) (List.Sorted.of_cons hsa) hsb
        · by_cases hyx : y < x
          · rw [if_neg hxy, if_pos hyx]
            have hcongr : (x :: a').filter (fun t => decide (t ∈ y :: b')) =
                (x :: a').filter (fun t => decide (t ∈ b')) := by
              apply List.filter_congr
              intro t ht
              rw [decide_eq_decide]
              have hxt : x ≤ t := sorted_head_le hsa t ht
              constructor
              · intro hmem
                rcases List.mem_cons.mp hmem with rfl | h
                · omega
                · exact h
              · intro h
                exact List.mem_cons_of_mem y h
            rw [hcongr]
            exact ih (x :: a') b' (by simp at hlen ⊢; omega) hsa (List.Sorted.of_cons hsb)
          · rw [if_neg hxy, if_neg hyx]
            have hxy' : x = y := by omega
            subst hxy'
            rw [List.filter_cons_of_pos (by simp)]
            congr 1
            have hcongr : a'.filter (fun t => decide (t ∈ x :: b')) =
                a'.filter (fun t => decide (t ∈ b')) := by
              apply List.filter_congr
              intro t ht
              rw [decide_eq_decide]
              have hxt : x < t := List.rel_of_sorted_cons hsa t ht
              constructor
              · intro hmem
                rcases List.mem_cons.mp hmem with rfl | h
                · omega
                · exact h
              · intro h
                exact List.mem_cons_of_mem x h
            rw [hcongr]
            exact ih a' b' (by simp at hlen ⊢; omega) (List.Sorted.of_cons hsa)
              (List.Sorted.of_cons hsb)
      rw [intersectSorted]
      split
      · rename_i h8
        by_cases hga : (x :: a').getD 7 0 < y
        · rw [if_pos hga]
          have heq := @filter_mem_drop8 (x :: a') (y :: b') hsa hsb (by simp)
            h8.1 (by simpa using hga)
          rw [ih ((x :: a').drop 8) (y :: b')
            (by simp only [List.length_drop] at *; simp at hlen ⊢; omega)
            (List.Pairwise.sublist (List.drop_sublist 8 _) hsa) hsb, ← heq]
        · rw [if_neg hga]
          by_cases hgb : (y :: b').getD 7 0 < x
          · rw [if_pos hgb]
            have heq := @filter_mem_drop8_right (x :: a') (y :: b') hsa hsb (by simp)
              h8.2 (by simpa using hgb)
            rw [ih (x :: a') ((y :: b').drop 8)
              (by simp only [List.length_drop] at *; simp at hlen ⊢; omega)
              hsa (List.Pairwise.sublist (List.drop_sublist 8 _) hsb), ← heq]
          · rw [if_neg hgb]
            exact hmerge
      · exact hmerge

/-- C3: For every pair of strictly sorted `[u32]` arrays, the galloping merge
`SimdOps::intersect_sorted(a, b)` equals the sorted unique intersection of
`a` and `b`: it is the sublist of `a` whose members also occur in `b`, it is
strictly sorted, and it contains an element iff both inputs do. -/
theorem simd_intersect_sorted_c3 (a b : List Nat)
    (ha : List.Sorted (· < ·) a) (hb : List.Sorted (· < ·) b) :
    intersectSorted a b = a.filter (fun t => decide (t ∈ b)) ∧
    List.Sorted (· < ·) (intersectSorted a b) ∧
    ∀ t, t ∈ intersectSorted a b ↔ t ∈ a ∧ t ∈ b := by
  have heq := intersectSorted_eq_filter (a.length + b.length) a b (le_refl _) ha hb
  refine ⟨heq, ?_, ?_⟩
  · rw [heq]
    exact List.Pairwise.filter _ ha
  · intro t
    rw [heq, List.mem_filter]
    simp

/-- Witness for C3 at concrete sorted arrays. -/
theorem simd_intersect_sorted_c3_witness :
    List.Sorted (· < ·) [1, 3, 5, 7] ∧ List.Sorted (· < ·) [3, 7, 8] ∧
    (intersectSorted [1, 3, 5, 7] [3, 7, 8] =
        [1, 3, 5, 7].filter (fun t => decide (t ∈ [3, 7, 8])) ∧
      List.Sorted (· < ·) (intersectSorted [1, 3, 5, 7] [3, 7, 8]) ∧
      ∀ t, t ∈ intersectSorted [1, 3, 5, 7] [3, 7, 8] ↔ t ∈ [1, 3, 5, 7] ∧ t ∈ [3, 7, 8]) :=
  ⟨by decide, by decide, simd_intersect_sorted_c3 [1, 3, 5, 7] [3, 7, 8] (by decide) (by decide)⟩

/-! ### Skip-list proofs -/

/-- Strictly sorted lists are strictly monotone position-wise. -/
theorem sorted_getElem_lt {xs : List Nat} (hs : List.Sorted (· < ·) xs)
    {i j : Nat} (hi : i < xs.length) (hj : j < xs.length) (hij : i < j) :
    xs[i] < xs[j] :=
  List.pairwise_iff_getElem.mp hs i j hi hj hij

/-- The linear scan misses targets that are not in the remaining list. -/
theorem scanFrom_none :
    ∀ (ds : List Nat) (i target : Nat), (∀ d ∈ ds, d ≠ target) →
      scanFrom ds i target = none := by
  intro ds
  induction ds with
  | nil => intro i target _; rfl
  | cons d ds ih =>
    intro i target hne
    simp only [scanFrom]
    rw [if_neg (hne d (by simp))]
    split
    · rfl
    · exact ih (i + 1) target (fun d' hd' => hne d' (by simp [hd']))

/-- On a strictly sorted list the linear scan started at or before the
target's index finds exactly that index. -/
theorem scanFrom_finds :
    ∀ (gap : Nat) (xs : List Nat) (pos k target : Nat), List.Sorted (· < ·) xs →
      (hk : k < xs.length) → xs[k] = target → pos ≤ k → k - pos ≤ gap →
      scanFrom (xs.drop pos) pos target = some k := by
  intro gap
  induction gap with
  | zero =>
    intro xs pos k target hs hk hkt hpos hgap
    have hpk : pos = k := by omega
    subst hpk
    rw [List.drop_eq_getElem_cons hk]
    simp only [scanFrom]
    rw [if_pos hkt]
  | succ n ih =>
    intro xs pos k target hs hk hkt hpos hgap
    rcases Nat.eq_or_lt_of_le hpos with heq | hlt
    · subst heq
      rw [List.drop_eq_getElem_cons hk]
      simp only [scanFrom]
      rw [if_pos hkt]
    · have hposlen : pos < xs.length := by omega
      have hlt' : xs[pos] < target := by
        rw [← hkt]
        exact sorted_getElem_lt hs hposlen hk hlt
      rw [List.drop_eq_getElem_cons hposlen]
      simp only [scanFrom]
      rw [if_neg (by omega), if_neg (by omega)]
      exact ih xs (pos + 1) k target hs hk hkt (by omega) (by omega)

/-- `findSkipPos` either keeps its running position or answers with the
position of an entry whose doc id is at most the target. -/
theorem findSkipPos_spec :
    ∀ (es : List (Nat × Nat)) (acc target : Nat),
      findSkipPos es acc target = acc ∨
        ∃ d, (d, findSkipPos es acc target) ∈ es ∧ d ≤ target := by
  intro es
  induction es with
  | nil => intro acc target; exact Or.inl rfl
  | cons e es ih =>
    intro acc target
    match e with
    | (d, p) =>
      simp only [findSkipPos]
      split
      · exact Or.inl rfl
      · rename_i hdt
        rcases ih p target with h | ⟨d', hd', hle⟩
        · exact Or.inr ⟨d, by rw [h]; exact ⟨by simp, by omega⟩⟩
        · exact Or.inr ⟨d', List.mem_cons_of_mem _ hd', hle⟩

/-- The skip phase of `find` never jumps past the target's index. -/
theorem findSkipPos_le {xs : List Nat} {interval target k : Nat}
    (hs : List.Sorted (· < ·) xs) (hk : k < xs.length) (hkt : xs[k] = target) :
    findSkipPos (buildEntries xs interval) 0 target ≤ k := by
  rcases findSkipPos_spec (buildEntries xs interval) 0 target with h | ⟨d, hmem, hle⟩
  · omega
  · obtain ⟨hp, hd⟩ := buildEntries_mem hmem
    by_contra hgt
    push_neg at hgt
    have := sorted_getElem_lt hs hk hp hgt
    rw [List.getD_eq_getElem _ _ hp] at hd
    omega

/-- A successful binary search answers inside its window with the target's
value at the answer. -/
theorem binarySearchLoop_some :
    ∀ (gap : Nat) (xs : List Nat) (target lo hi m : Nat), hi - lo ≤ gap →
      binarySearchLoop xs target lo hi = some m →
        lo ≤ m ∧ m < hi ∧ xs.getD m 0 = target := by
  intro gap
  induction gap with
  | zero =>
    intro xs target lo hi m hgap h
    rw [binarySearchLoop] at h
    rw [dif_neg (by omega)] at h
    simp at h
  | succ n ih =>
    intro xs target lo hi m hgap h
    rw [binarySearchLoop] at h
    by_cases hlo : lo < hi
    · rw [dif_pos hlo] at h
      split at h
      · have := ih xs target ((lo + hi) / 2 + 1) hi m (by omega) h
        omega
      · split at h
        · have := ih xs target lo ((lo + hi) / 2) m (by omega) h
          omega
        · simp at h
          subst h
          refine ⟨by omega, by omega, by omega⟩
    · rw [dif_neg hlo] at h
      simp at h

/-- On a strictly sorted list the binary search finds the (unique) index of a
present target. -/
theorem binarySearchLoop_finds :
    ∀ (gap : Nat) (xs : List Nat) (target lo hi k : Nat), List.Sorted (· < ·) xs →
      hi - lo ≤ gap → hi ≤ xs.length →
      (hk : k < xs.length) → xs[k] = target → lo ≤ k → k < hi →
      binarySearchLoop xs target lo hi = some k := by
  intro gap
  induction gap with
  | zero =>
    intro xs target lo hi k _ hgap _ _ _ hlo hhi
    omega
  | succ n ih =>
    intro xs target lo hi k hs hgap hlen hk hkt hlo hhi
    have hlohi : lo < hi := by omega
    have hmidlt : (lo + hi) / 2 < xs.length := by omega
    rw [binarySearchLoop, dif_pos hlohi]
    rw [List.getD_eq_getElem _ _ hmidlt]
    by_cases h1 : xs[(lo + hi) / 2] < target
    · rw [if_pos h1]
      have hkmid : (lo + hi) / 2 < k := by
        by_contra hle
        push_neg at hle
        rcases Nat.eq_or_lt_of_le hle with he | hl
        · subst he
          omega
        · have := sorted_getElem_lt hs hk hmidlt hl
          omega
      exact ih xs target ((lo + hi) / 2 + 1) hi k hs (by omega) hlen hk hkt (by omega) hhi
    · rw [if_neg h1]
      by_cases h2 : target < xs[(lo + hi) / 2]
      · rw [if_pos h2]
        have hkmid : k < (lo + hi) / 2 := by
          by_contra hle
          push_neg at hle
          rcases Nat.eq_or_lt_of_le hle with he | hl
          · subst he
            omega
          · have := sorted_getElem_lt hs hmidlt hk hl
            omega
        exact ih xs target lo ((lo + hi) / 2) k hs (by omega) (by omega) hk hkt hlo hkmid
      · rw [if_neg h2]
        have hmid : xs[(lo + hi) / 2] = target := by omega
        congr 1
        by_contra hne
        rcases Nat.lt_or_ge ((lo + hi) / 2) k with hl | hg
        · have := sorted_getElem_lt hs hmidlt hk hl
          omega
        · have hl : k < (lo + hi) / 2 := by omega
          have := sorted_getElem_lt hs hk hmidlt hl
          omega

/-- `SkipList::find` agrees with the binary search of `PostingList::find_doc`
on every strictly increasing doc-id list, for every skip interval. -/
theorem skipFind_eq_findDoc (xs : List Nat) (interval target : Nat)
    (hs : List.Sorted (· < ·) xs) :
    skipFind xs interval target = findDoc xs target := by
  by_cases hmem : target ∈ xs
  · obtain ⟨k, hk, hkt⟩ := List.mem_iff_getElem.mp hmem
    have hpos := @findSkipPos_le xs interval target k hs hk hkt
    rw [skipFind, findDoc]
    rw [scanFrom_finds (k - findSkipPos (buildEntries xs interval) 0 target) xs _ k target
      hs hk hkt hpos (le_refl _)]
    rw [binarySearchLoop_finds xs.length xs target 0 xs.length k hs (by omega) (le_refl _)
      hk hkt (by omega) hk]
  · rw [skipFind, findDoc]
    rw [scanFrom_none _ _ _ ?hne]
    case hne =>
      intro d hd he
      subst he
      exact hmem (List.mem_of_mem_drop hd)
    cases hb : binarySearchLoop xs target 0 xs.length with
    | none => rfl
    | some m =>
      obtain ⟨_, hm, hmt⟩ := binarySearchLoop_some xs.length xs target 0 xs.length m
        (by omega) hb
      exfalso
      apply hmem
      rw [← hmt, List.getD_eq_getElem _ _ (by omega)]
      exact List.getElem_mem _

/-- C5: for every strictly increasing decoded doc-id list and every target,
`SkipList::build(pl).find(d)` (skip walk + linear scan, with the interval
`max(sqrt(n), 4)` chosen by `build`) returns the same `Option<index>` as
`PostingList::find_doc(d)` (binary search over the decoded doc ids). -/
theorem skiplist_find_c5 (xs : List Nat) (target : Nat)
    (hs : List.Sorted (· < ·) xs) :
    skipFind xs (skipInterval xs.length) target = findDoc xs target :=
  skipFind_eq_findDoc xs (skipInterval xs.length) target hs

/-- Witness for C5 on a concrete posting list and both a present and an
absent target. -/
theorem skiplist_find_c5_witness :
    List.Sorted (· < ·) [2, 5, 9] ∧
    skipFind [2, 5, 9] (skipInterval 3) 5 = findDoc [2, 5, 9] 5 ∧
    skipFind [2, 5, 9] (skipInterval 3) 4 = findDoc [2, 5, 9] 4 :=
  ⟨by decide, skiplist_find_c5 [2, 5, 9] 5 (by decide),
    skiplist_find_c5 [2, 5, 9] 4 (by decide)⟩

/-- C2 (bug): `SkipList::intersect` on the skip lists built from the strictly
increasing doc-id lists `[2, 5]` and `[0, 1, 5, 6, 7]` returns `[]`, while
the naive linear merge intersection is `[5]`.  `skip_to_ge` jumps to the
first skip entry at or after the cursor whose doc id reaches the target, even
when non-entry positions in between hold smaller doc ids — here the cursor of
the second list jumps from position 0 directly to position 4, skipping the
common element 5 at position 2. -/
theorem skiplist_intersect_c2_bug :
    skipIntersect [2, 5] [0, 1, 5, 6, 7] = [] ∧
    [2, 5].filter (fun t => decide (t ∈ [0, 1, 5, 6, 7])) = [5] := by
  constructor
  · rw [skipIntersect]
    rw [skipIntersectGo]
    norm_num [skipInterval, skipToGe, skipToGeEntries, buildEntries, linearGeFrom]
    rw [skipIntersectGo]
    norm_num [skipToGe, skipToGeEntries, buildEntries, linearGeFrom]
    rw [skipIntersectGo]
    norm_num
  · decide

/-- Witness for C4 at a concrete sorted u32 list. -/
theorem delta_roundtrip_c4_witness :
    List.Sorted (· ≤ ·) [0, 1, 128, 4294967295] ∧
    (∀ x ∈ [0, 1, 128, 4294967295], x < 2 ^ 32) ∧
    deltaDecodeU32List (deltaEncodeU32List [0, 1, 128, 4294967295]) =
      .ok [0, 1, 128, 4294967295] :=
  ⟨by decide, by decide,
    (delta_roundtrip_c4 [0, 1, 128, 4294967295] (by decide) (by decide)).1⟩

/-! ### Write-ahead log proofs -/

/-- C6 (counterexample): a WAL file holding a single physically truncated
entry — a complete 4-byte length prefix announcing 5 bytes, followed by only
one byte — makes `read_entries` fail with an `Io` error (the inner
`read_exact(&mut data)?` propagates `UnexpectedEof`), instead of returning
`Ok` with the entries up to the last well-formed one (here `Ok([])`) as the
claim states.  The deserializer is irrelevant: it is never reached. -/
theorem wal_read_entries_c6_counterexample :
    readEntries (fun _ => (none : Option Nat)) [5, 0, 0, 0, 170] = .error .io := by
  rw [readEntries]
  norm_num [fromLe4]

/-- C6 (amended): on a file consisting of length-prefixed records (each at
most 10 MB) followed by a tail shorter than a length prefix — in particular a
file whose trailing entry is complete but fails to deserialize, or which was
truncated inside a length prefix — `read_entries` returns `Ok` with exactly
the well-formed entries, skipping every record the deserializer rejects.
(Truncation inside a record's data after a complete length prefix instead
yields an `Io` error, and a length prefix above 10 MB an `InvalidInput`
error.) -/
theorem wal_read_entries_c6_amended {α : Type} (deser : List Nat → Option α)
    (chunks : List (List Nat)) (tail : List Nat)
    (hlen : ∀ c ∈ chunks, c.length ≤ 10000000) (htail : tail.length < 4) :
    readEntries deser ((chunks.map encodeFrame).join ++ tail) =
      .ok (chunks.filterMap deser) := by
  induction chunks with
  | nil =>
    have hshape : (([] : List (List Nat)).map encodeFrame).join ++ tail = tail := by simp
    rw [hshape, readEntries, dif_pos htail]
    simp
  | cons c cs ih =>
    have hc : c.length ≤ 10000000 := hlen c (by simp)
    have hc32 : c.length < 2 ^ 32 := by
      have : (2 : Nat) ^ 32 = 4294967296 := by norm_num
      omega
    have hshape : (((c :: cs).map encodeFrame).join ++ tail) =
        c.length % 256 :: c.length / 256 % 256 :: c.length / 65536 % 256 ::
          c.length / 16777216 % 256 :: (c ++ ((cs.map encodeFrame).join ++ tail)) := by
      simp [encodeFrame, leBytes4, List.append_assoc]
    rw [hshape, readEntries]
    have hlen4 : ¬ ((c.length % 256 :: c.length / 256 % 256 :: c.length / 65536 % 256 ::
        c.length / 16777216 % 256 :: (c ++ ((cs.map encodeFrame).join ++ tail))).length < 4) := by
      simp
    rw [dif_neg hlen4]
    simp only [List.getD_cons_zero, List.getD_cons_succ, List.drop_succ_cons,
      List.drop_zero]
    rw [fromLe4_leBytes4 c.length hc32]
    rw [if_neg (by omega)]
    rw [if_neg (by simp)]
    rw [List.take_left, List.drop_left]
    cases hd : deser c with
    | some e =>
      simp only [List.filterMap_cons, hd]
      rw [ih (fun c' hc' => hlen c' (List.mem_cons_of_mem _ hc'))]
      rfl
    | none =>
      simp only [List.filterMap_cons, hd]
      rw [ih (fun c' hc' => hlen c' (List.mem_cons_of_mem _ hc'))]

/-- Witness for the amended C6 theorem: two well-formed records, the first
deserializable and the second not, followed by a 3-byte truncated tail. -/
theorem wal_read_entries_c6_amended_witness :
    (∀ c ∈ [[7], [9, 9]], List.length c ≤ 10000000) ∧ List.length [1, 2, 3] < 4 ∧
    readEntries (fun l => if l = [9, 9] then none else some l)
        (([[7], [9, 9]].map encodeFrame).join ++ [1, 2, 3]) =
      .ok ([[7], [9, 9]].filterMap (fun l => if l = [9, 9] then none else some l)) :=
  ⟨by decide, by decide,
    wal_read_entries_c6_amended (fun l => if l = [9, 9] then none else some l)
      [[7], [9, 9]] [1, 2, 3] (by decide) (by decide)⟩

/-! ### Stable sort lemmas (shared by fuzzy_search and the merge policy) -/

/-- Keyed insertion permutes to a cons. -/
theorem insertKeyed_perm {α : Type} (key : α → Nat) (x : α) (l : List α) :
    (insertKeyed key x l).Perm (x :: l) := by
  induction l with
  | nil => exact List.Perm.refl _
  | cons y ys ih =>
    simp only [insertKeyed]
    split
    · exact (ih.cons y).trans (List.Perm.swap x y ys)
    · exact List.Perm.refl _

/-- The fold of keyed insertions permutes to appending the processed
elements. -/
theorem sortKeyed_perm_aux {α : Type} (key : α → Nat) :
    ∀ (l acc : List α),
      (l.foldl (fun acc x => insertKeyed key x acc) acc).Perm (acc ++ l) := by
  intro l
  induction l with
  | nil => intro acc; simp
  | cons x xs ih =>
    intro acc
    simp only [List.foldl_cons]
    exact (ih (insertKeyed key x acc)).trans
      (((insertKeyed_perm key x acc).append_right xs).trans List.perm_middle.symm)

/-- The insertion sort is a permutation of its input. -/
theorem sortKeyed_perm {α : Type} (key : α → Nat) (l : List α) :
    (sortKeyed key l).Perm l := by
  simpa using sortKeyed_perm_aux key l []

/-- Keyed insertion preserves sortedness by the key. -/
theorem insertKeyed_sorted {α : Type} (key : α → Nat) (x : α) (l : List α)
    (hl : l.Pairwise (fun a b => key a ≤ key b)) :
    (insertKeyed key x l).Pairwise (fun a b => key a ≤ key b) := by
  induction l with
  | nil => simp [insertKeyed]
  | cons y ys ih =>
    rw [List.pairwise_cons] at hl
    obtain ⟨hy, hys⟩ := hl
    simp only [insertKeyed]
    split
    · rename_i hky
      rw [List.pairwise_cons]
      refine ⟨?_, ih hys⟩
      intro t ht
      rcases List.mem_cons.mp ((insertKeyed_perm key x ys).mem_iff.mp ht) with rfl | h
      · exact hky
      · exact hy t h
    · rename_i hky
      rw [List.pairwise_cons]
      refine ⟨?_, List.pairwise_cons.mpr ⟨hy, hys⟩⟩
      intro t ht
      rcases List.mem_cons.mp ht with rfl | h
      · omega
      · have := hy t h
        omega

/-- The fold of keyed insertions keeps the accumulator sorted by the key. -/
theorem sortKeyed_sorted_aux {α : Type} (key : α → Nat) :
    ∀ (l acc : List α), acc.Pairwise (fun a b => key a ≤ key b) →
      (l.foldl (fun acc x => insertKeyed key x acc) acc).Pairwise
        (fun a b => key a ≤ key b) := by
  intro l
  induction l with
  | nil => intro acc h; simpa using h
  | cons x xs ih =>
    intro acc h
    simp only [List.foldl_cons]
    exact ih (insertKeyed key x acc) (insertKeyed_sorted key x acc h)

/-- The insertion sort sorts by the key. -/
theorem sortKeyed_sorted {α : Type} (key : α → Nat) (l : List α) :
    (sortKeyed key l).Pairwise (fun a b => key a ≤ key b) :=
  sortKeyed_sorted_aux key l [] (by simp)

/-! ### Merge policy proofs -/

/-- The accumulation loop never lets the selected total exceed
`max_merge_size`. -/
theorem selectLoop_sum (M K : Nat) :
    ∀ (rest selected : List Nat) (cur : Nat), selected.sum = cur → cur ≤ M →
      (selectLoop M K rest selected cur).sum ≤ M := by
  intro rest
  induction rest with
  | nil =>
    intro selected cur hsum hle
    simp only [selectLoop]
    omega
  | cons s rest ih =>
    intro selected cur hsum hle
    simp only [selectLoop]
    split
    · exact ih selected cur hsum hle
    · split
      · omega
      · split
        · rename_i hover _
          simp only [List.sum_append, List.sum_cons, List.sum_nil]
          omega
        · exact ih (selected ++ [s]) (cur + s)
            (by simp only [List.sum_append, List.sum_cons, List.sum_nil]; omega) (by omega)

/-- The accumulation loop stops at `max_segments_to_merge` selections. -/
theorem selectLoop_length (M K : Nat) :
    ∀ (rest selected : List Nat) (cur : Nat), selected.length < K →
      (selectLoop M K rest selected cur).length ≤ K := by
  intro rest
  induction rest with
  | nil =>
    intro selected cur hlen
    simp only [selectLoop]
    omega
  | cons s rest ih =>
    intro selected cur hlen
    simp only [selectLoop]
    split
    · exact ih selected cur hlen
    · split
      · omega
      · split
        · rename_i hstop
          simp only [List.length_append, List.length_cons, List.length_nil] at hstop ⊢
          omega
        · rename_i hgo
          apply ih (selected ++ [s]) (cur + s)
          simp only [List.length_append, List.length_cons, List.length_nil] at hgo ⊢
          omega

/-- Everything the loop selects is at most half of `max_merge_size` (larger
segments are skipped with `continue`). -/
theorem selectLoop_le_half (M K : Nat) :
    ∀ (rest selected : List Nat) (cur : Nat), (∀ t ∈ selected, t ≤ M / 2) →
      ∀ t ∈ selectLoop M K rest selected cur, t ≤ M / 2 := by
  intro rest
  induction rest with
  | nil =>
    intro selected cur hsel
    simpa only [selectLoop] using hsel
  | cons s rest ih =>
    intro selected cur hsel
    simp only [selectLoop]
    split
    · exact ih selected cur hsel
    · rename_i hskip
      have hsel' : ∀ t ∈ selected ++ [s], t ≤ M / 2 := by
        intro t ht
        rcases List.mem_append.mp ht with h | h
        · exact hsel t h
        · simp at h
          omega
      split
      · exact hsel
      · split
        · exact hsel'
        · exact ih (selected ++ [s]) (cur + s) hsel'

/-- C9 (amended): with the default `TieredMergePolicy` (512 MiB max segment
size, 2..10 segments per merge), the selection sorts ascending by size and
accumulates so that every *individual* selected segment is at most half the
max segment size (256 MiB), the selected *total* never exceeds the full max
segment size (512 MiB — not half of it, as the claim stated), at most 10
segments are selected, and fewer than 2 qualifying candidates yield the
empty selection. -/
theorem merge_policy_select_c9_amended (sizes : List Nat) :
    (selectSegmentsToMerge 512 2 10 sizes).sum ≤ 536870912 ∧
    (selectSegmentsToMerge 512 2 10 sizes).length ≤ 10 ∧
    (selectSegmentsToMerge 512 2 10 sizes = [] ∨
      2 ≤ (selectSegmentsToMerge 512 2 10 sizes).length) ∧
    ∀ t ∈ selectSegmentsToMerge 512 2 10 sizes, t ≤ 268435456 := by
  rw [selectSegmentsToMerge]
  split
  · simp
  · rename_i hmin
    push_neg at hmin
    refine ⟨?_, ?_, Or.inr hmin, ?_⟩
    · have h := selectLoop_sum (512 * 1024 * 1024) 10 (sortKeyed (fun s => s) sizes) [] 0
        rfl (by omega)
      omega
    · exact selectLoop_length (512 * 1024 * 1024) 10 (sortKeyed (fun s => s) sizes) [] 0
        (by norm_num)
    · intro t ht
      have h := selectLoop_le_half (512 * 1024 * 1024) 10 (sortKeyed (fun s => s) sizes) [] 0
        (by simp) t ht
      omega

/-- C9 (counterexample): three 200 MiB segments.  All three pass the
individual `> max_merge_size / 2` filter; the loop accumulates two of them
(total 400 MiB ≤ 512 MiB) and breaks at the third, so the selected total is
419430400 bytes — more than half the maximum segment size (268435456), which
the claim asserted could never happen. -/
theorem merge_policy_select_c9_counterexample :
    (selectSegmentsToMerge 512 2 10 [209715200, 209715200, 209715200]).sum = 419430400 ∧
    512 * 1024 * 1024 / 2 < 419430400 := by
  constructor
  · decide
  · norm_num

/-! ### Term-enumeration proofs -/

/-- C7 (bug): for the wildcard pattern `a?c` and the dictionary term `xabcx`,
`wildcard_search` returns the term although the whole term does not match the
pattern — the translated regex `a.c` is *unanchored* in `Regex::is_match`, so
the proper substring `abc` suffices.  Under the claim's anchored-at-both-ends
semantics (`matchesWhole`) the term does not match and the result should have
been empty. -/
theorem wildcard_search_c7_bug :
    wildcardSearch [['x', 'a', 'b', 'c', 'x']] ['a', '?', 'c'] =
      [['x', 'a', 'b', 'c', 'x']] ∧
    matchesWhole (translatePattern ['a', '?', 'c']) ['x', 'a', 'b', 'c', 'x'] = false := by
  constructor
  · simp [wildcardSearch, translatePattern, isMatch, matchesFrom]
  · simp [matchesWhole, translatePattern]

/-- C8 (counterexample): dictionary iteration order `["b", "a"]` (a `HashMap`
order), query term `"c"`, max distance 1, no prefix.  Both terms are at
distance 1; `sort_by_key` sorts by distance only and keeps the iteration
order, so the result is `[("b", 1), ("a", 1)]` — *not* sorted by the claim's
distance-then-lexicographic order, which demands `("a", 1)` first. -/
theorem fuzzy_search_c8_counterexample :
    fuzzySearch [['b'], ['a']] ['c'] 1 0 = [(['b'], 1), (['a'], 1)] ∧
    ¬ List.Pairwise (fun p q : List Char × Nat =>
        p.2 < q.2 ∨ (p.2 = q.2 ∧ lexLe p.1 q.1 = true))
      (fuzzySearch [['b'], ['a']] ['c'] 1 0) := by
  have heval : fuzzySearch [['b'], ['a']] ['c'] 1 0 = [(['b'], 1), (['a'], 1)] := by
    simp [fuzzySearch, fuzzyCandidates, levenshteinDistance, sortKeyed, insertKeyed]
  refine ⟨heval, ?_⟩
  rw [heval]
  decide

/-- C8 (amended): `fuzzy_search` returns exactly the `(term, distance)` pairs
with distance ≤ max that pass the prefix filter (a permutation of the
candidate list in dictionary iteration order), sorted by ascending distance;
ties keep the dictionary iteration order (stable sort by distance alone)
rather than lexicographic order. -/
theorem fuzzy_search_c8_amended (dict : List (List Char)) (term : List Char)
    (maxDistance prefixLength : Nat) :
    (fuzzySearch dict term maxDistance prefixLength).Perm
      (fuzzyCandidates dict term maxDistance prefixLength) ∧
    (fuzzySearch dict term maxDistance prefixLength).Pairwise
      (fun p q => p.2 ≤ q.2) :=
  ⟨sortKeyed_perm _ _, sortKeyed_sorted _ _⟩

/-! ### MVCC proofs -/

/-- Retention characterization of `gc_old_versions`: an entry survives iff it
was present and either no GC ran (at most `max_versions` entries) or its
version is at least the minimum active transaction id (`u64::MAX` when no
transaction is active).  The `current_len <= min_keep` disjunct never holds
when GC runs, because `current_len` is captured before the `retain` and
exceeds `max_versions ≥ max_versions / 2`. -/
theorem gcOldVersions_mem (maxVersions : Nat) (activeTxns : List Nat)
    (versions : List (Nat × SnapshotM)) (v : Nat) (s : SnapshotM) :
    (v, s) ∈ gcOldVersions maxVersions activeTxns versions ↔
      ((v, s) ∈ versions ∧
        (versions.length ≤ maxVersions ∨ activeTxns.min?.getD U64MAX ≤ v)) := by
  rw [gcOldVersions]
  split
  · rename_i hlen
    rw [List.mem_filter]
    constructor
    · rintro ⟨hmem, hp⟩
      simp only [Bool.or_eq_true, decide_eq_true_eq] at hp
      rcases hp with h | h
      · exact ⟨hmem, Or.inr h⟩
      · omega
    · rintro ⟨hmem, hor⟩
      refine ⟨hmem, ?_⟩
      simp only [Bool.or_eq_true, decide_eq_true_eq]
      rcases hor with h | h
      · omega
      · exact Or.inl h
  · rename_i hlen
    constructor
    · intro hmem
      exact ⟨hmem, Or.inl (by omega)⟩
    · exact fun h => h.1

/-- C1 (amended): after `create_snapshot_with_deletes` publishes a snapshot,
a version/snapshot pair remains in the map iff it is in the post-insert map
and either the map held at most `max_versions` entries (no GC) or the version
is ≥ the minimum active transaction id — `u64::MAX` when no transaction is
active, in which case GC (once triggered) removes *every* version, the
just-published one included.  The "floor" disjunct of the claim never
retains anything: the pre-retain length is compared against
`max_versions / 2` and exceeds it whenever GC runs. -/
theorem mvcc_create_gc_c1_amended (st : MVCCStateM) (segments deletedDocs : List Nat)
    (v : Nat) (s : SnapshotM) :
    (v, s) ∈ (createSnapshotWithDeletes st segments deletedDocs).1.versions ↔
      ((v, s) ∈ insertVersion st.versions st.currentVersion
          ⟨st.currentVersion, segments, segments.sum, deletedDocs⟩ ∧
        ((insertVersion st.versions st.currentVersion
            ⟨st.currentVersion, segments, segments.sum, deletedDocs⟩).length ≤
              st.maxVersions ∨
          st.activeTxns.min?.getD U64MAX ≤ v)) :=
  gcOldVersions_mem st.maxVersions st.activeTxns _ v s

/-- C1 (counterexample): a controller in the reachable state of 100 published
versions `0..=99`, version counter 100 and *no* active transaction publishes
snapshot version 100; GC triggers (101 > 100 entries), `min_active` falls
back to `u64::MAX`, and every version is dropped — the versions map comes
back empty, so the just-published latest snapshot (version 100) is *not*
retained, and the retained count (0) is far below the floor of 50 even
though versions were discarded. -/
theorem mvcc_gc_c1_counterexample :
    (createSnapshotWithDeletes
        ⟨(List.range 100).map (fun i => (i, defaultSnapshot)), [], 100, 100⟩
        [] []).1.versions = [] ∧
    (createSnapshotWithDeletes
        ⟨(List.range 100).map (fun i => (i, defaultSnapshot)), [], 100, 100⟩
        [] []).2.version = 100 := by
  constructor
  · decide
  · decide

/-- C10: when the version map does not contain the expected version — in
particular when no snapshot has ever been published, so the counter is 0 and
the map is empty — `current_snapshot` does not fail: it returns
`Snapshot::default()`, i.e. version 0, no segments, `doc_count` 0 and an
empty deletion bitmap. -/
theorem mvcc_current_snapshot_c10 (st : MVCCStateM)
    (h : st.versions.lookup
        (if st.currentVersion > 0 then st.currentVersion - 1 else 0) = none) :
    currentSnapshot st = defaultSnapshot ∧
    (currentSnapshot st).version = 0 ∧ (currentSnapshot st).segments = [] ∧
    (currentSnapshot st).docCount = 0 ∧ (currentSnapshot st).deletedDocs = [] := by
  have he : currentSnapshot st = defaultSnapshot := by
    rw [currentSnapshot, h]
    rfl
  rw [he]
  exact ⟨rfl, rfl, rfl, rfl, rfl⟩

/-- Witness for C10 at the freshly constructed controller (`new()`: empty
map, counter 0). -/
theorem mvcc_current_snapshot_c10_witness :
    (MVCCStateM.mk [] [] 0 100).versions.lookup
        (if (MVCCStateM.mk [] [] 0 100).currentVersion > 0 then
          (MVCCStateM.mk [] [] 0 100).currentVersion - 1 else 0) = none ∧
    currentSnapshot (MVCCStateM.mk [] [] 0 100) = defaultSnapshot :=
  ⟨rfl, (mvcc_current_snapshot_c10 (MVCCStateM.mk [] [] 0 100) rfl).1⟩

end Drusdenx
